import Mathlib

set_option maxRecDepth 16000

/-!
Verification of the mobility-sort recommendation core
(`src/mobility_sort_new.py`): the device model, the geofence/battery
filter, provider fee calculation, score normalization and the
tolerance-band quicksort used as the Ranker.

Modelling conventions: Python floats (coordinates, distances, scores)
are rationals; Python `dict` lookup failure (`KeyError`) and `min()` /
`max()` on an empty sequence (`ValueError`) are modelled with `Option`;
the external route-distance HTTP call is an oracle parameter
(`Option ℚ`: `some` is a successful parsed response, `none` any
failure); in-place mutation of device objects is modelled by explicit
state passing (the filter returns the post-call state of every input
device next to the admitted list).
-/

/-- Device record (`@dataclass Device` in `mobility_sort_new.py`).
`price`, `dist` and `score` start at the dataclass defaults `0`, `0.0`,
`0.0` and are written by the pipeline stages. -/
structure Device where
  id : Int
  provider : String
  lat : ℚ
  lon : ℚ
  battery : Int
  price : Int := 0
  dist : ℚ := 0
  score : ℚ := 0
deriving DecidableEq, Repr

/-- Coordinate pair (`Point` in the source): `x` is latitude, `y` is
longitude. -/
structure Point where
  x : ℚ
  y : ℚ
deriving DecidableEq, Repr

/-- Search radius constant `RADIUS_METERS = 500`. -/
def RADIUS_METERS : ℚ := 500

/-- Average ride speed constant `AVG_SCOOTER_SPEED_M_PER_MIN = 250`. -/
def AVG_SCOOTER_SPEED_M_PER_MIN : ℚ := 250

/-- Night window start `NIGHT_START_HOUR = 22`. -/
def NIGHT_START_HOUR : Nat := 22

/-- Night window end `NIGHT_END_HOUR = 6`. -/
def NIGHT_END_HOUR : Nat := 6

/-- Battery admission threshold `MIN_BATTERY_PERCENTAGE = 10`. -/
def MIN_BATTERY_PERCENTAGE : Int := 10

/-- Python `math.isclose a b` with its default tolerances
`rel_tol = 1e-9`, `abs_tol = 0.0`, that is
`|a - b| <= max(rel_tol * max(|a|, |b|), abs_tol)`; with `abs_tol = 0`
the outer `max` is the relative term. -/
def isclose (a b : ℚ) : Bool :=
  decide (|a - b| ≤ 1 / 1000000000 * max |a| |b|)

/-- Fee table `PROVIDER_FEES`: provider key to (base fare, per-minute
fare), as an association list. -/
def PROVIDER_FEES : List (String × Int × Int) :=
  [("alpaca", 500, 150),
   ("gcoo_day", 800, 180),
   ("gcoo_night", 1200, 180),
   ("socarelecle_day", 500, 150),
   ("socarelecle_night", 1500, 150),
   ("xingxing", 1500, 200),
   ("kickgoing", 1000, 120),
   ("swing", 1200, 150)]

/-- Key resolution inside `calculateFee`: providers `gcoo` and
`socarelecle` get a `_day` / `_night` suffix chosen by the night flag,
every other provider string is its own key. -/
def feeKey (provider : String) (night : Bool) : String :=
  if provider = "gcoo" ∨ provider = "socarelecle" then
    provider ++ (if night then "_night" else "_day")
  else provider

/-- `calculateFee(provider, minutes, night)`: dict lookup of the
resolved key (a missing key raises `KeyError`, modelled as `none`),
then `base + per_min * ceil(minutes)`; the Python `int(...)` wrapper is
the identity on this already-integral value. -/
def calculateFee (provider : String) (minutes : ℚ) (night : Bool) : Option Int :=
  match List.lookup (feeKey provider night) PROVIDER_FEES with
  | none => none
  | some (base, per_min) => some (base + per_min * ⌈minutes⌉)

/-- `isNight(now)` reads only `now.hour`, so it is modelled on the hour
of the supplied timestamp: night is `hour >= 22 or hour < 6`. -/
def isNight (hour : Nat) : Bool :=
  decide (NIGHT_START_HOUR ≤ hour) || decide (hour < NIGHT_END_HOUR)

/-- `getRideMinutes(distance_m) = distance_m / AVG_SCOOTER_SPEED_M_PER_MIN`. -/
def getRideMinutes (distance_m : ℚ) : ℚ :=
  distance_m / AVG_SCOOTER_SPEED_M_PER_MIN

/-- `getTmapDistance(start, end)`: the external route HTTP call and its
response parsing are the oracle `routeResponse` (`some d` is a
successful parsed `totalDistance`, `none` is any failure: network
error, non-success status, malformed body, timeout). On failure the
code returns `getDistance(start, end) * 1.2`; the great-circle function
`getDistance` (haversine over real trigonometric functions) is
abstracted as the parameter `dist`. -/
def getTmapDistance (routeResponse : Option ℚ) (dist : Point → Point → ℚ)
    (start finish : Point) : ℚ :=
  match routeResponse with
  | some d => d
  | none => dist start finish * 1.2

/-- `getPrices(devices, path_m, now)`: computes the ride minutes and the
night flag once, then writes `dev.price := calculateFee(...)` for every
device; a `KeyError` aborts the loop (`none`). -/
def getPrices (devices : List Device) (path_m : ℚ) (hour : Nat) :
    Option (List Device) :=
  devices.mapM fun dev =>
    (calculateFee dev.provider (getRideMinutes path_m) (isNight hour)).map
      fun p => { dev with price := p }

/-- `filterDevices(devices, start)` with the in-place mutation made
explicit. The first component is the list the function returns (the
admitted devices); the second is the post-call state of every input
device: the loop writes `dev.dist` on every device that passes the
battery gate, including devices the radius check then rejects. The
great-circle function `getDistance` is abstracted as `dist`. -/
def filterDevicesS (dist : Point → Point → ℚ) :
    List Device → Point → List Device × List Device
  | [], _ => ([], [])
  | dev :: rest, start =>
    let r := filterDevicesS dist rest start
    if dev.battery < MIN_BATTERY_PERCENTAGE then (r.1, dev :: r.2)
    else
      let dev' := { dev with dist := dist start ⟨dev.lat, dev.lon⟩ }
      if dev'.dist ≤ RADIUS_METERS then (dev' :: r.1, dev' :: r.2)
      else (r.1, dev' :: r.2)

/-- Return value of `filterDevices` (first component of the explicit
state-passing version). -/
def filterDevices (dist : Point → Point → ℚ) (devices : List Device)
    (start : Point) : List Device :=
  (filterDevicesS dist devices start).1

/-- `computeScore(devices)`: `min()` / `max()` on the empty price list
raise `ValueError` (modelled as `none`); otherwise every device's
`score` is written from its price score (with the `price_span == 0`
fallback of `100`) and its distance score, blended `0.2 / 0.8`. -/
def computeScore (devices : List Device) : Option (List Device) :=
  match devices.map Device.price with
  | [] => none
  | p :: ps =>
    let p_min := ps.foldl min p
    let p_max := ps.foldl max p
    let price_span := p_max - p_min
    some (devices.map fun dev =>
      let price_score : ℚ :=
        if price_span = 0 then 100
        else ((p_max : ℚ) - (dev.price : ℚ)) / (price_span : ℚ) * 100
      let dist_score : ℚ := max 0 ((RADIUS_METERS - dev.dist) / RADIUS_METERS * 100)
      { dev with score := price_score * 0.2 + dist_score * 0.8 })

instance : Inhabited Device :=
  ⟨{ id := 0, provider := "", lat := 0, lon := 0, battery := 0 }⟩

/-- Pivot score of the recursive sort: `devices[n // 2].score` (only
used on lists of length at least 2, where the index is in range). -/
def pivotScore (l : List Device) : ℚ :=
  (l.getD (l.length / 2) default).score

/-- Partition `left = [d for d in devices if d.score > pivot]`. -/
def qsLeft (l : List Device) : List Device :=
  l.filter fun d => decide (pivotScore l < d.score)

/-- Partition `mid = [d for d in devices if math.isclose(d.score, pivot)]`. -/
def qsMid (l : List Device) : List Device :=
  l.filter fun d => isclose d.score (pivotScore l)

/-- Partition `right = [d for d in devices if d.score < pivot]`. -/
def qsRight (l : List Device) : List Device :=
  l.filter fun d => decide (d.score < pivotScore l)

/-- Fuel-indexed form of `quicksort`; the fuel only bounds the recursion
depth, and `quicksortFuel l.length l` is the function itself: each
recursive call strictly shrinks the list, see `qsLeft_length_lt` and
`qsRight_length_lt`. -/
def quicksortFuel : Nat → List Device → List Device
  | 0, l => l
  | fuel + 1, l =>
    if l.length ≤ 1 then l
    else quicksortFuel fuel (qsLeft l) ++ qsMid l ++ quicksortFuel fuel (qsRight l)

/-- `quicksort(devices)`: return lists of length at most 1 unchanged;
otherwise pivot on the middle element's score, keep the tolerance band
`mid` in input order, recurse on `left` and `right` and concatenate
`left-sorted ++ mid ++ right-sorted`. -/
def quicksort (devices : List Device) : List Device :=
  quicksortFuel devices.length devices

/-- Helper building a device with a given id and score; the other
fields are arbitrary fixed values used by concrete test inputs. -/
def mkDev (i : Int) (s : ℚ) : Device :=
  { id := i, provider := "p", lat := 0, lon := 0, battery := 100,
    price := 0, dist := 0, score := s }

/-- Scores of the list are tolerance-separated: any two members whose
scores pass the `math.isclose` test have exactly equal scores. This is
the hypothesis under which the tolerance-band partition is a genuine
three-way split. -/
def TolSeparated (l : List Device) : Prop :=
  ∀ d ∈ l, ∀ e ∈ l, isclose d.score e.score = true → d.score = e.score

instance (l : List Device) : Decidable (TolSeparated l) :=
  inferInstanceAs (Decidable (∀ d ∈ l, ∀ e ∈ l,
    isclose d.score e.score = true → d.score = e.score))

/-! ### Tolerance test and partition lemmas -/

/-- Closeness is reflexive: `math.isclose(x, x)` is true. -/
theorem isclose_self (a : ℚ) : isclose a a = true := by
  simp only [isclose, decide_eq_true_eq, sub_self, abs_zero]
  positivity

theorem TolSeparated.mono {l l' : List Device} (hsub : ∀ d ∈ l', d ∈ l)
    (h : TolSeparated l) : TolSeparated l' :=
  fun d hd e he hc => h d (hsub d hd) e (hsub e he) hc

theorem getD_mem (l : List Device) (n : Nat) (h : n < l.length) :
    l.getD n default ∈ l := by
  induction l generalizing n with
  | nil => simp at h
  | cons a t ih =>
    cases n with
    | zero => exact List.mem_cons_self a t
    | succ m =>
      rw [List.getD_cons_succ]
      exact List.mem_cons_of_mem a (ih m (by simpa using h))

/-- The pivot score is the score of a member of the list (for lists of
length at least 2, where `quicksort` uses it). -/
theorem pivot_mem {l : List Device} (h : ¬ l.length ≤ 1) :
    ∃ pv ∈ l, pv.score = pivotScore l :=
  ⟨l.getD (l.length / 2) default, getD_mem l _ (by omega), rfl⟩

theorem length_filter_lt {p : Device → Bool} {l : List Device} {a : Device}
    (ha : a ∈ l) (hp : p a = false) : (l.filter p).length < l.length := by
  induction l with
  | nil => cases ha
  | cons b t ih =>
    rcases List.mem_cons.mp ha with rfl | hat
    · rw [List.filter_cons, hp]
      simpa using Nat.lt_succ_of_le (List.length_filter_le p t)
    · rw [List.filter_cons]
      by_cases hb : p b
      · simpa [hb] using ih hat
      · simp only [hb, Bool.false_eq_true, if_false, List.length_cons]
        exact Nat.lt_succ_of_lt (ih hat)

theorem qsLeft_length_lt {l : List Device} (h : ¬ l.length ≤ 1) :
    (qsLeft l).length < l.length := by
  obtain ⟨pv, hpv, hps⟩ := pivot_mem h
  exact length_filter_lt hpv (by simp [hps])

theorem qsRight_length_lt {l : List Device} (h : ¬ l.length ≤ 1) :
    (qsRight l).length < l.length := by
  obtain ⟨pv, hpv, hps⟩ := pivot_mem h
  exact length_filter_lt hpv (by simp [hps])

/-- Every element of the sort output is an element of the input. -/
theorem mem_of_mem_quicksortFuel :
    ∀ (fuel : Nat) (l : List Device) (d : Device),
      d ∈ quicksortFuel fuel l → d ∈ l
  | 0, _, _, h => h
  | fuel + 1, l, d, h => by
    by_cases h1 : l.length ≤ 1
    · simpa [quicksortFuel, h1] using h
    · rw [quicksortFuel, if_neg h1] at h
      rcases List.mem_append.mp h with h' | h'
      · rcases List.mem_append.mp h' with h'' | h''
        · exact List.mem_of_mem_filter (mem_of_mem_quicksortFuel fuel _ d h'')
        · exact List.mem_of_mem_filter h''
      · exact List.mem_of_mem_filter (mem_of_mem_quicksortFuel fuel _ d h')

theorem lt_of_mem_qsLeft {l : List Device} {d : Device} (hd : d ∈ qsLeft l) :
    pivotScore l < d.score :=
  of_decide_eq_true (List.mem_filter.mp hd).2

theorem lt_of_mem_qsRight {l : List Device} {d : Device} (hd : d ∈ qsRight l) :
    d.score < pivotScore l :=
  of_decide_eq_true (List.mem_filter.mp hd).2

/-- Under tolerance separation the `mid` band is exactly the elements
whose score equals the pivot score. -/
theorem qsMid_eq_filter_eq {l : List Device} (h1 : ¬ l.length ≤ 1)
    (hsep : TolSeparated l) :
    qsMid l = l.filter fun d => decide (d.score = pivotScore l) := by
  obtain ⟨pv, hpv, hps⟩ := pivot_mem h1
  refine List.filter_congr fun d hd => ?_
  by_cases he : d.score = pivotScore l
  · rw [he, isclose_self]
    simp
  · rw [decide_eq_false he]
    cases hc : isclose d.score (pivotScore l) with
    | false => rfl
    | true => exact absurd (hsep d hd pv hpv (by rwa [hps])) (by rwa [hps])

theorem score_eq_of_mem_qsMid {l : List Device} {d : Device}
    (h1 : ¬ l.length ≤ 1) (hsep : TolSeparated l) (hd : d ∈ qsMid l) :
    d.score = pivotScore l := by
  rw [qsMid_eq_filter_eq h1 hsep] at hd
  exact of_decide_eq_true (List.mem_filter.mp hd).2

/-! ### Sortedness and stability of the quicksort under separation -/

theorem pairwise_of_len_le_one {l : List Device} (h : l.length ≤ 1) :
    l.Pairwise fun a b => b.score ≤ a.score := by
  match l with
  | [] => exact List.Pairwise.nil
  | [a] => exact List.pairwise_singleton _ a
  | a :: b :: t => simp at h

theorem pairwise_of_score_all_eq {m : List Device} {c : ℚ}
    (h : ∀ d ∈ m, d.score = c) : m.Pairwise fun a b => b.score ≤ a.score := by
  induction m with
  | nil => exact List.Pairwise.nil
  | cons a t ih =>
    rw [List.pairwise_cons]
    refine ⟨fun b hb => ?_, ih fun d hd => h d (List.mem_cons_of_mem a hd)⟩
    rw [h b (List.mem_cons_of_mem a hb), h a (List.mem_cons_self a t)]

/-- Output of the fuel-indexed quicksort is non-increasing in score,
for tolerance-separated inputs. -/
theorem quicksortFuel_pairwise :
    ∀ (fuel : Nat) (l : List Device), l.length ≤ fuel → TolSeparated l →
      (quicksortFuel fuel l).Pairwise fun a b => b.score ≤ a.score
  | 0, l, hf, _ => by
    rw [List.eq_nil_of_length_eq_zero (Nat.le_zero.mp hf)]
    exact List.Pairwise.nil
  | fuel + 1, l, hf, hsep => by
    by_cases h1 : l.length ≤ 1
    · simpa [quicksortFuel, h1] using pairwise_of_len_le_one h1
    · have hlen : l.length = fuel + 1 ∨ l.length ≤ fuel := by omega
      have hleft := quicksortFuel_pairwise fuel (qsLeft l)
        (by have := qsLeft_length_lt h1; omega)
        (hsep.mono fun d hd => List.mem_of_mem_filter hd)
      have hright := quicksortFuel_pairwise fuel (qsRight l)
        (by have := qsRight_length_lt h1; omega)
        (hsep.mono fun d hd => List.mem_of_mem_filter hd)
      rw [quicksortFuel, if_neg h1, List.append_assoc, List.pairwise_append]
      refine ⟨hleft, ?_, ?_⟩
      · rw [List.pairwise_append]
        refine ⟨pairwise_of_score_all_eq fun d hd =>
            score_eq_of_mem_qsMid h1 hsep hd, hright, fun a ha b hb => ?_⟩
        have ha' := score_eq_of_mem_qsMid h1 hsep ha
        have hb' := lt_of_mem_qsRight (mem_of_mem_quicksortFuel fuel _ b hb)
        rw [ha']
        exact le_of_lt hb'
      · intro a ha b hb
        have ha' := lt_of_mem_qsLeft (mem_of_mem_quicksortFuel fuel _ a ha)
        rcases List.mem_append.mp hb with hb' | hb'
        · rw [score_eq_of_mem_qsMid h1 hsep hb']
          exact le_of_lt ha'
        · have hb'' := lt_of_mem_qsRight (mem_of_mem_quicksortFuel fuel _ b hb')
          exact le_of_lt (lt_trans hb'' ha')

/-- For every exact score value, filtering the fuel-indexed quicksort
output by that score gives the same subsequence as filtering the input:
elements of an equal-score class keep their relative order. -/
theorem quicksortFuel_filter_score :
    ∀ (fuel : Nat) (l : List Device) (c : ℚ), l.length ≤ fuel → TolSeparated l →
      (quicksortFuel fuel l).filter (fun d => decide (d.score = c)) =
        l.filter fun d => decide (d.score = c)
  | 0, l, c, hf, _ => by
    rw [List.eq_nil_of_length_eq_zero (Nat.le_zero.mp hf)]
    rfl
  | fuel + 1, l, c, hf, hsep => by
    by_cases h1 : l.length ≤ 1
    · simp [quicksortFuel, h1]
    · rw [quicksortFuel, if_neg h1, List.filter_append, List.filter_append,
        quicksortFuel_filter_score fuel (qsLeft l) c
          (by have := qsLeft_length_lt h1; omega)
          (hsep.mono fun d hd => List.mem_of_mem_filter hd),
        quicksortFuel_filter_score fuel (qsRight l) c
          (by have := qsRight_length_lt h1; omega)
          (hsep.mono fun d hd => List.mem_of_mem_filter hd)]
      rcases lt_trichotomy c (pivotScore l) with hc | hc | hc
      · have hL : (qsLeft l).filter (fun d => decide (d.score = c)) = [] := by
          rw [List.filter_eq_nil_iff]
          intro a ha
          have := lt_of_mem_qsLeft ha
          simp only [decide_eq_true_eq]
          intro he
          exact absurd (he ▸ this) (by push_neg; exact le_of_lt hc)
        have hM : (qsMid l).filter (fun d => decide (d.score = c)) = [] := by
          rw [List.filter_eq_nil_iff]
          intro a ha
          have := score_eq_of_mem_qsMid h1 hsep ha
          simp only [decide_eq_true_eq]
          intro he
          exact absurd (he ▸ this) (ne_of_lt hc)
        have hR : (qsRight l).filter (fun d => decide (d.score = c)) =
            l.filter fun d => decide (d.score = c) := by
          rw [qsRight, List.filter_filter]
          refine List.filter_congr fun d hd => ?_
          by_cases he : d.score = c
          · simp [he, hc]
          · simp [he]
        rw [hL, hM, hR, List.nil_append, List.nil_append]
      · have hL : (qsLeft l).filter (fun d => decide (d.score = c)) = [] := by
          rw [List.filter_eq_nil_iff]
          intro a ha
          have := lt_of_mem_qsLeft ha
          simp only [decide_eq_true_eq]
          intro he
          rw [he, hc] at this
          exact absurd this (lt_irrefl _)
        have hR : (qsRight l).filter (fun d => decide (d.score = c)) = [] := by
          rw [List.filter_eq_nil_iff]
          intro a ha
          have := lt_of_mem_qsRight ha
          simp only [decide_eq_true_eq]
          intro he
          rw [he, hc] at this
          exact absurd this (lt_irrefl _)
        have hM : (qsMid l).filter (fun d => decide (d.score = c)) =
            l.filter fun d => decide (d.score = c) := by
          rw [qsMid_eq_filter_eq h1 hsep, List.filter_filter]
          refine List.filter_congr fun d hd => ?_
          by_cases he : d.score = c
          · simp [he, hc]
          · simp [he]
        rw [hL, hM, hR, List.nil_append, List.append_nil]
      · have hM : (qsMid l).filter (fun d => decide (d.score = c)) = [] := by
          rw [List.filter_eq_nil_iff]
          intro a ha
          have := score_eq_of_mem_qsMid h1 hsep ha
          simp only [decide_eq_true_eq]
          intro he
          exact absurd (he ▸ this) (ne_of_gt hc)
        have hR : (qsRight l).filter (fun d => decide (d.score = c)) = [] := by
          rw [List.filter_eq_nil_iff]
          intro a ha
          have := lt_of_mem_qsRight ha
          simp only [decide_eq_true_eq]
          intro he
          exact absurd (he ▸ this) (by push_neg; exact le_of_lt hc)
        have hL : (qsLeft l).filter (fun d => decide (d.score = c)) =
            l.filter fun d => decide (d.score = c) := by
          rw [qsLeft, List.filter_filter]
          refine List.filter_congr fun d hd => ?_
          by_cases he : d.score = c
          · simp [he, hc]
          · simp [he]
        rw [hL, hM, hR, List.append_nil, List.append_nil]

/-! ### Identity on sorted separated inputs -/

/-- On a non-increasing list, the exact three-way split at any value
`c` reassembles, in order, to the list itself. -/
theorem filter_trichotomy_of_sorted (c : ℚ) :
    ∀ l : List Device, (l.Pairwise fun a b => b.score ≤ a.score) →
      ((l.filter fun d => decide (c < d.score)) ++
        ((l.filter fun d => decide (d.score = c)) ++
          l.filter fun d => decide (d.score < c))) = l := by
  intro l
  induction l with
  | nil => simp
  | cons a t ih =>
    rw [List.pairwise_cons]
    rintro ⟨ha, ht⟩
    rcases lt_trichotomy c a.score with h | h | h
    · rw [List.filter_cons_of_pos (by simpa using h),
        List.filter_cons_of_neg (by simpa using ne_of_gt h),
        List.filter_cons_of_neg (by simp; exact le_of_lt h),
        List.cons_append, ih ht]
    · have hgt : (t.filter fun d => decide (c < d.score)) = [] := by
        rw [List.filter_eq_nil_iff]
        intro b hb
        simpa using h ▸ ha b hb
      have iht := ih ht
      rw [hgt, List.nil_append] at iht
      rw [List.filter_cons_of_neg (by simp [h]),
        List.filter_cons_of_pos (by simp [h]),
        List.filter_cons_of_neg (by simp [h]), hgt,
        List.nil_append, List.cons_append, iht]
    · have hgt : (t.filter fun d => decide (c < d.score)) = [] := by
        rw [List.filter_eq_nil_iff]
        intro b hb
        have := le_trans (ha b hb) (le_of_lt h)
        simpa using this
      have heq : (t.filter fun d => decide (d.score = c)) = [] := by
        rw [List.filter_eq_nil_iff]
        intro b hb
        have := lt_of_le_of_lt (ha b hb) h
        simpa using ne_of_lt this
      have iht := ih ht
      rw [hgt, heq, List.nil_append, List.nil_append] at iht
      rw [List.filter_cons_of_neg (by simp; exact le_of_lt h),
        List.filter_cons_of_neg (by simpa using ne_of_lt h),
        List.filter_cons_of_pos (by simpa using h), hgt, heq,
        List.nil_append, List.nil_append, iht]

/-- The fuel-indexed quicksort returns a non-increasing,
tolerance-separated list unchanged. -/
theorem quicksortFuel_sorted_id :
    ∀ (fuel : Nat) (l : List Device), l.length ≤ fuel → TolSeparated l →
      (l.Pairwise fun a b => b.score ≤ a.score) → quicksortFuel fuel l = l
  | 0, _, _, _, _ => rfl
  | fuel + 1, l, hf, hsep, hsort => by
    by_cases h1 : l.length ≤ 1
    · simp [quicksortFuel, h1]
    · rw [quicksortFuel, if_neg h1,
        quicksortFuel_sorted_id fuel (qsLeft l)
          (by have := qsLeft_length_lt h1; omega)
          (hsep.mono fun d hd => List.mem_of_mem_filter hd)
          (List.Pairwise.sublist (List.filter_sublist l) hsort),
        quicksortFuel_sorted_id fuel (qsRight l)
          (by have := qsRight_length_lt h1; omega)
          (hsep.mono fun d hd => List.mem_of_mem_filter hd)
          (List.Pairwise.sublist (List.filter_sublist l) hsort),
        qsMid_eq_filter_eq h1 hsep, List.append_assoc]
      exact filter_trichotomy_of_sorted (pivotScore l) l hsort

/-! ### Bounds for folded minima and maxima of the price list -/

theorem foldl_min_le_init : ∀ (ps : List Int) (p : Int), ps.foldl min p ≤ p
  | [], _ => le_refl _
  | b :: t, p => le_trans (foldl_min_le_init t (min p b)) (min_le_left p b)

theorem foldl_min_le_mem : ∀ (ps : List Int) (p x : Int), x ∈ ps →
    ps.foldl min p ≤ x
  | b :: t, p, x, hx => by
    rcases List.mem_cons.mp hx with rfl | hxt
    · exact le_trans (foldl_min_le_init t (min p x)) (min_le_right p x)
    · exact foldl_min_le_mem t (min p b) x hxt

theorem le_foldl_max_init : ∀ (ps : List Int) (p : Int), p ≤ ps.foldl max p
  | [], _ => le_refl _
  | b :: t, p => le_trans (le_max_left p b) (le_foldl_max_init t (max p b))

theorem le_foldl_max_mem : ∀ (ps : List Int) (p x : Int), x ∈ ps →
    x ≤ ps.foldl max p
  | b :: t, p, x, hx => by
    rcases List.mem_cons.mp hx with rfl | hxt
    · exact le_trans (le_max_right p x) (le_foldl_max_init t (max p x))
    · exact le_foldl_max_mem t (max p b) x hxt

theorem foldl_min_all_eq {p : Int} : ∀ {ps : List Int}, (∀ x ∈ ps, x = p) →
    ps.foldl min p = p
  | [], _ => rfl
  | b :: t, h => by
    have hb : b = p := h b (List.mem_cons_self b t)
    rw [List.foldl_cons, hb, min_self]
    exact foldl_min_all_eq fun x hx => h x (List.mem_cons_of_mem b hx)

theorem foldl_max_all_eq {p : Int} : ∀ {ps : List Int}, (∀ x ∈ ps, x = p) →
    ps.foldl max p = p
  | [], _ => rfl
  | b :: t, h => by
    have hb : b = p := h b (List.mem_cons_self b t)
    rw [List.foldl_cons, hb, max_self]
    exact foldl_max_all_eq fun x hx => h x (List.mem_cons_of_mem b hx)

/-! ### Characterization of the device filter -/

/-- The admitted list is exactly the battery-and-radius filter of the
distance-updated devices, in input order. -/
theorem filterDevicesS_fst (f : Point → Point → ℚ) (start : Point) :
    ∀ devices : List Device,
      (filterDevicesS f devices start).1 =
        (devices.map fun d => { d with dist := f start ⟨d.lat, d.lon⟩ }).filter
          fun d => decide (MIN_BATTERY_PERCENTAGE ≤ d.battery) &&
            decide (d.dist ≤ RADIUS_METERS)
  | [] => rfl
  | dev :: rest => by
    have ih := filterDevicesS_fst f start rest
    simp only [filterDevicesS, List.map_cons]
    by_cases hb : dev.battery < MIN_BATTERY_PERCENTAGE
    · rw [if_pos hb, List.filter_cons_of_neg (by simp; intro h; omega)]
      exact ih
    · rw [if_neg hb]
      by_cases hd : f start ⟨dev.lat, dev.lon⟩ ≤ RADIUS_METERS
      · rw [if_pos hd, List.filter_cons_of_pos (by simp; exact ⟨by omega, hd⟩)]
        simpa using ih
      · rw [if_neg hd, List.filter_cons_of_neg (by simp; intro _; exact not_le.mp hd)]
        exact ih

/-- Post-call state of the input devices: the loop writes `dist` on
every device passing the battery gate (also on radius-rejected ones)
and leaves battery-rejected devices untouched. -/
theorem filterDevicesS_snd (f : Point → Point → ℚ) (start : Point) :
    ∀ devices : List Device,
      (filterDevicesS f devices start).2 =
        devices.map fun d =>
          if d.battery < MIN_BATTERY_PERCENTAGE then d
          else { d with dist := f start ⟨d.lat, d.lon⟩ }
  | [] => rfl
  | dev :: rest => by
    have ih := filterDevicesS_snd f start rest
    simp only [filterDevicesS, List.map_cons]
    by_cases hb : dev.battery < MIN_BATTERY_PERCENTAGE
    · rw [if_pos hb, if_pos hb]
      simpa using ih
    · rw [if_neg hb, if_neg hb]
      by_cases hd : f start ⟨dev.lat, dev.lon⟩ ≤ RADIUS_METERS
      · rw [if_pos hd]
        simpa using ih
      · rw [if_neg hd]
        simpa using ih

/-! ### Claim C1 -/

/-- C1 (counterexample): the Ranker output is not non-increasing across
tolerance bands. With scores `999999999`, `1000000000`, `1000000001`
the two outer scores are each within the closeness tolerance of the
pivot `1000000000` but not of each other, and the returned sequence
places the smaller score (position 1) before the larger one
(position 3) although the two are not within tolerance — and the pair
also violates the stated stability, since the larger score preceded
the smaller one nowhere in the input order. -/
theorem quicksort_band_monotonicity_cex :
    quicksort [mkDev 1 999999999, mkDev 2 1000000000, mkDev 3 1000000001] =
      [mkDev 3 1000000001, mkDev 1 999999999, mkDev 2 1000000000,
        mkDev 3 1000000001, mkDev 1 999999999] ∧
    (mkDev 1 999999999).score < (mkDev 3 1000000001).score ∧
    isclose (mkDev 1 999999999).score (mkDev 3 1000000001).score = false ∧
    isclose (mkDev 1 999999999).score (mkDev 2 1000000000).score = true ∧
    isclose (mkDev 3 1000000001).score (mkDev 2 1000000000).score = true := by
  refine ⟨by with_unfolding_all rfl, by with_unfolding_all decide,
    by with_unfolding_all decide, by with_unfolding_all decide,
    by with_unfolding_all decide⟩

/-- C1 (amended): for tolerance-separated candidate lists — any two
candidates whose scores pass the closeness test have exactly equal
scores — the Ranker output is non-increasing in score, and for every
exact score value the candidates carrying it appear in the output in
their relative pre-sort input order. -/
theorem quicksort_sorted_and_stable_of_tolSeparated (l : List Device)
    (hsep : TolSeparated l) :
    ((quicksort l).Pairwise fun a b => b.score ≤ a.score) ∧
      ∀ c : ℚ, (quicksort l).filter (fun d => decide (d.score = c)) =
        l.filter fun d => decide (d.score = c) :=
  ⟨quicksortFuel_pairwise l.length l le_rfl hsep,
    fun c => quicksortFuel_filter_score l.length l c le_rfl hsep⟩

/-- C1 (witness): the amended theorem applied to the concrete separated
input with scores `300`, `100`, `200`. -/
theorem quicksort_sorted_and_stable_witness :
    ((quicksort [mkDev 1 300, mkDev 2 100, mkDev 3 200]).Pairwise
      fun a b => b.score ≤ a.score) ∧
    (quicksort [mkDev 1 300, mkDev 2 100, mkDev 3 200]).filter
        (fun d => decide (d.score = 200)) =
      [mkDev 1 300, mkDev 2 100, mkDev 3 200].filter
        fun d => decide (d.score = 200) := by
  have h := quicksort_sorted_and_stable_of_tolSeparated
    [mkDev 1 300, mkDev 2 100, mkDev 3 200] (by with_unfolding_all decide)
  exact ⟨h.1, h.2 200⟩

/-! ### Claim C2 -/

/-- C2 (failing input): the partition is not disjoint, and `quicksort`
is not a permutation of its input. With the two scores `1000000000`
and `1000000001` — distinct but within the closeness tolerance — the
first device falls into both the `mid` band of the pivot and the
`right` partition, so it appears twice in the output: the result has
three elements and is no permutation of the two-element input. -/
theorem quicksort_duplicates_close_scores :
    quicksort [mkDev 1 1000000000, mkDev 2 1000000001] =
      [mkDev 1 1000000000, mkDev 2 1000000001, mkDev 1 1000000000] ∧
    isclose (mkDev 1 1000000000).score (mkDev 2 1000000001).score = true ∧
    ¬ (quicksort [mkDev 1 1000000000, mkDev 2 1000000001]).Perm
        [mkDev 1 1000000000, mkDev 2 1000000001] := by
  have hq : quicksort [mkDev 1 1000000000, mkDev 2 1000000001] =
      [mkDev 1 1000000000, mkDev 2 1000000001, mkDev 1 1000000000] := by
    with_unfolding_all rfl
  refine ⟨hq, by with_unfolding_all decide, fun hp => ?_⟩
  have hlen := hp.length_eq
  rw [hq] at hlen
  simp at hlen

/-! ### Claim C7 -/

/-- C7 (counterexample): a strictly descending two-element sequence
whose scores are within the closeness tolerance is not returned
unchanged — the head is duplicated into the output. -/
theorem quicksort_sorted_input_cex :
    (mkDev 1 1000000000).score < (mkDev 2 1000000001).score ∧
    quicksort [mkDev 2 1000000001, mkDev 1 1000000000] =
      [mkDev 2 1000000001, mkDev 2 1000000001, mkDev 1 1000000000] ∧
    quicksort [mkDev 2 1000000001, mkDev 1 1000000000] ≠
      [mkDev 2 1000000001, mkDev 1 1000000000] := by
  have hq : quicksort [mkDev 2 1000000001, mkDev 1 1000000000] =
      [mkDev 2 1000000001, mkDev 2 1000000001, mkDev 1 1000000000] := by
    with_unfolding_all rfl
  refine ⟨by with_unfolding_all decide, hq, fun he => ?_⟩
  have hlen := congrArg List.length he
  rw [hq] at hlen
  simp at hlen

/-- C7 (amended): a sequence that is already sorted in non-increasing
score order and is tolerance-separated (any two scores passing the
closeness test are exactly equal) is returned unchanged by the
Ranker's sort. -/
theorem quicksort_id_of_sorted_tolSeparated (l : List Device)
    (hsep : TolSeparated l)
    (hsort : l.Pairwise fun a b => b.score ≤ a.score) : quicksort l = l :=
  quicksortFuel_sorted_id l.length l le_rfl hsep hsort

/-- C7 (witness): the amended theorem applied to the concrete strictly
descending separated input with scores `300`, `200`, `100`. -/
theorem quicksort_id_witness :
    quicksort [mkDev 1 300, mkDev 2 200, mkDev 3 100] =
      [mkDev 1 300, mkDev 2 200, mkDev 3 100] :=
  quicksort_id_of_sorted_tolSeparated _ (by with_unfolding_all decide)
    (by with_unfolding_all decide)

/-! ### Claim C3 -/

/-- C3: `filterDevices` admits exactly the devices with
`battery >= MIN_BATTERY_PERCENTAGE` and distance from the start at most
`RADIUS_METERS`, with `dist` set on each admitted candidate, for every
distance function; and in the concrete scenario with distances `0`,
`400` and `600` metres (radius `500`, batteries above the threshold
`10`) exactly the first two devices are admitted. -/
theorem filterDevices_admissions :
    (∀ (f : Point → Point → ℚ) (devices : List Device) (start : Point),
      filterDevices f devices start =
        (devices.map fun d => { d with dist := f start ⟨d.lat, d.lon⟩ }).filter
          fun d => decide (MIN_BATTERY_PERCENTAGE ≤ d.battery) &&
            decide (d.dist ≤ RADIUS_METERS)) ∧
    filterDevices (fun _ q => if q.x = 1 then 0 else if q.x = 2 then 400 else 600)
        [{ id := 1, provider := "p", lat := 1, lon := 0, battery := 50 },
         { id := 2, provider := "p", lat := 2, lon := 0, battery := 50 },
         { id := 3, provider := "p", lat := 3, lon := 0, battery := 50 }] ⟨0, 0⟩ =
      [{ id := 1, provider := "p", lat := 1, lon := 0, battery := 50, dist := 0 },
       { id := 2, provider := "p", lat := 2, lon := 0, battery := 50, dist := 400 }] :=
  ⟨fun f devices start => filterDevicesS_fst f start devices,
    by with_unfolding_all decide⟩

/-! ### Claim C4 -/

/-- C4: for every provider and timeband whose resolved key is present
in the fee table, and every trip duration, the fee equals
`base + per_min * ceil(minutes)`. -/
theorem calculateFee_formula (provider : String) (minutes : ℚ) (night : Bool)
    (base per_min : Int)
    (h : List.lookup (feeKey provider night) PROVIDER_FEES =
      some (base, per_min)) :
    calculateFee provider minutes night = some (base + per_min * ⌈minutes⌉) := by
  rw [calculateFee, h]

/-- C4 (witness): provider `alpaca` with a trip duration of `12.4`
minutes is billed `500 + 150 * 13 = 2450`. -/
theorem calculateFee_formula_witness :
    List.lookup (feeKey "alpaca" false) PROVIDER_FEES = some (500, 150) ∧
    calculateFee "alpaca" (62/5) false = some 2450 := by
  have hl : List.lookup (feeKey "alpaca" false) PROVIDER_FEES =
      some (500, 150) := by with_unfolding_all decide
  refine ⟨hl, ?_⟩
  rw [calculateFee_formula "alpaca" (62/5) false 500 150 hl]
  with_unfolding_all decide

/-! ### Claim C8 -/

/-- C8: `calculateFee` returns a value exactly when the resolved
provider/timeband key is present in the fee table; a missing key is an
error (`none`), never a silent zero fee. -/
theorem calculateFee_isSome_iff_key_present (provider : String) (minutes : ℚ)
    (night : Bool) :
    (calculateFee provider minutes night).isSome =
      (List.lookup (feeKey provider night) PROVIDER_FEES).isSome := by
  cases h : List.lookup (feeKey provider night) PROVIDER_FEES with
  | none => rw [calculateFee, h]; rfl
  | some v =>
    obtain ⟨base, per_min⟩ := v
    rw [calculateFee, h]; rfl

/-! ### Claim C6 -/

/-- C6: when the route-distance call fails (`none` oracle), the trip
distance used by the core is exactly the great-circle distance scaled
by `1.2`, and every fee of the query is computed from that
fallback-scaled distance. -/
theorem tmap_fallback_fee_basis (dist : Point → Point → ℚ) (s e : Point)
    (devices : List Device) (hour : Nat) :
    getTmapDistance none dist s e = dist s e * 1.2 ∧
    getPrices devices (getTmapDistance none dist s e) hour =
      devices.mapM fun dev =>
        (calculateFee dev.provider (getRideMinutes (dist s e * 1.2))
          (isNight hour)).map fun p => { dev with price := p } :=
  ⟨rfl, rfl⟩

/-! ### Claim C9 -/

/-- C9 (counterexample): `filterDevices` is not free of side effects on
its input. A device with battery `50` at distance `600` is rejected by
the radius check, yet its `dist` field has been overwritten from `0`
to `600` in the post-call state, so the input record is changed. -/
theorem filterDevices_mutation_cex :
    filterDevices (fun _ _ => 600)
        [{ id := 7, provider := "p", lat := 3, lon := 4, battery := 50 }]
        ⟨0, 0⟩ = [] ∧
    (filterDevicesS (fun _ _ => 600)
        [{ id := 7, provider := "p", lat := 3, lon := 4, battery := 50 }]
        ⟨0, 0⟩).2 =
      [{ id := 7, provider := "p", lat := 3, lon := 4, battery := 50,
          dist := 600 }] ∧
    ({ id := 7, provider := "p", lat := 3, lon := 4, battery := 50,
        dist := 600 } : Device) ≠
      { id := 7, provider := "p", lat := 3, lon := 4, battery := 50 } := by
  refine ⟨by with_unfolding_all decide, by with_unfolding_all decide,
    by with_unfolding_all decide⟩

/-- C9 (amended): the only write `filterDevices` performs on its input
is setting `dist` on the devices that pass the battery gate (including
radius-rejected ones); battery-rejected devices, and every other field
of every device, are left unchanged. -/
theorem filterDevices_post_state (f : Point → Point → ℚ)
    (devices : List Device) (start : Point) :
    (filterDevicesS f devices start).2 =
      devices.map fun d =>
        if d.battery < MIN_BATTERY_PERCENTAGE then d
        else { d with dist := f start ⟨d.lat, d.lon⟩ } :=
  filterDevicesS_snd f start devices

/-! ### Claim C5 -/

/-- C5 (counterexample): on the empty candidate collection
`computeScore` is not a no-op — `min()` of the empty price sequence
raises `ValueError`, modelled as `none`, so no updated collection is
returned. -/
theorem computeScore_empty_raises :
    computeScore [] = none ∧ computeScore [] ≠ some [] :=
  ⟨rfl, by simp [computeScore]⟩

/-- C5 (amended): `computeScore` raises on the empty collection (the
orchestrator only calls it on non-empty ones); and for every non-empty
collection in which all candidates share one price, every candidate
receives `price_score = 100` regardless of its distance, so its score
is `100 * 0.2 + dist_score * 0.8`. -/
theorem computeScore_amended :
    computeScore [] = none ∧
    ∀ devices : List Device, devices ≠ [] →
      (∀ d ∈ devices, ∀ e ∈ devices, d.price = e.price) →
      computeScore devices = some (devices.map fun dev =>
        { dev with score := (100 : ℚ) * 0.2 +
            (max 0 ((RADIUS_METERS - dev.dist) / RADIUS_METERS * 100)) * 0.8 }) := by
  refine ⟨rfl, ?_⟩
  intro devices hne heq
  match devices with
  | [] => exact absurd rfl hne
  | a :: rest =>
    have hall : ∀ x ∈ rest.map Device.price, x = a.price := by
      intro x hx
      obtain ⟨d, hd, rfl⟩ := List.mem_map.mp hx
      exact heq d (List.mem_cons_of_mem a hd) a (List.mem_cons_self a rest)
    have hmax : (rest.map Device.price).foldl max a.price = a.price :=
      foldl_max_all_eq hall
    have hmin : (rest.map Device.price).foldl min a.price = a.price :=
      foldl_min_all_eq hall
    simp only [computeScore, List.map_cons, hmax, hmin, sub_self, if_pos]

/-- C5 (witness): two candidates with equal price `1000` and distances
`100` and `200` both get `price_score = 100`, so their scores are
`20 + 64 = 84` and `20 + 48 = 68`. -/
theorem computeScore_amended_witness :
    computeScore
        [{ mkDev 1 0 with price := 1000, dist := 100 },
         { mkDev 2 0 with price := 1000, dist := 200 }] =
      some [{ mkDev 1 0 with price := 1000, dist := 100, score := 84 },
        { mkDev 2 0 with price := 1000, dist := 200, score := 68 }] :=
  (computeScore_amended.2 _ (by simp) (by with_unfolding_all decide)).trans
    (by with_unfolding_all rfl)

/-! ### Claim C10 -/

/-- Weighted blend of two values of `[0, 100]` with the weights `0.2`
and `0.8` lies in `[0, 100]`. -/
theorem score_blend_range {ps ds : ℚ} (h1 : 0 ≤ ps) (h2 : ps ≤ 100)
    (h3 : 0 ≤ ds) (h4 : ds ≤ 100) :
    0 ≤ ps * 0.2 + ds * 0.8 ∧ ps * 0.2 + ds * 0.8 ≤ 100 := by
  constructor <;> nlinarith

/-- C10: for every non-empty candidate collection with non-negative
distances, every score written by `computeScore` lies in the closed
interval `[0, 100]`. -/
theorem computeScore_range (devices out : List Device)
    (hne : devices ≠ [])
    (hdist : ∀ d ∈ devices, 0 ≤ d.dist)
    (hout : computeScore devices = some out) :
    ∀ d ∈ out, 0 ≤ d.score ∧ d.score ≤ 100 := by
  match devices with
  | [] => exact absurd rfl hne
  | a :: rest =>
    rw [show computeScore (a :: rest) = some ((a :: rest).map fun dev =>
        { dev with score :=
            (if (rest.map Device.price).foldl max a.price -
                  (rest.map Device.price).foldl min a.price = 0 then (100 : ℚ)
              else ((((rest.map Device.price).foldl max a.price : ℤ) : ℚ) -
                    (dev.price : ℚ)) /
                  (((rest.map Device.price).foldl max a.price -
                    (rest.map Device.price).foldl min a.price : ℤ) : ℚ) * 100) *
              0.2 +
            (max 0 ((RADIUS_METERS - dev.dist) / RADIUS_METERS * 100)) * 0.8 })
        from rfl, Option.some.injEq] at hout
    subst hout
    intro d hd
    obtain ⟨dev, hdev, rfl⟩ := List.mem_map.mp hd
    set X := (rest.map Device.price).foldl max a.price with hX
    set Y := (rest.map Device.price).foldl min a.price with hY
    have hdev_min : Y ≤ dev.price := by
      rcases List.mem_cons.mp hdev with rfl | hmem
      · exact foldl_min_le_init _ _
      · exact foldl_min_le_mem _ _ _ (List.mem_map_of_mem _ hmem)
    have hdev_max : dev.price ≤ X := by
      rcases List.mem_cons.mp hdev with rfl | hmem
      · exact le_foldl_max_init _ _
      · exact le_foldl_max_mem _ _ _ (List.mem_map_of_mem _ hmem)
    have hd0 : 0 ≤ dev.dist := hdist dev hdev
    refine score_blend_range ?_ ?_ ?_ ?_
    · split
      · norm_num
      · next hsp =>
        have hspan : (0 : ℤ) < X - Y := by omega
        have hlt : (0 : ℚ) < ((X - Y : ℤ) : ℚ) := by exact_mod_cast hspan
        refine mul_nonneg (div_nonneg ?_ (le_of_lt hlt)) (by norm_num)
        have hc : (dev.price : ℚ) ≤ (X : ℚ) := by exact_mod_cast hdev_max
        linarith
    · split
      · norm_num
      · next hsp =>
        have hspan : (0 : ℤ) < X - Y := by omega
        have hlt : (0 : ℚ) < ((X - Y : ℤ) : ℚ) := by exact_mod_cast hspan
        have hfrac : ((X : ℚ) - (dev.price : ℚ)) / ((X - Y : ℤ) : ℚ) ≤ 1 := by
          rw [div_le_one hlt]
          push_cast
          have hc : (Y : ℚ) ≤ (dev.price : ℚ) := by exact_mod_cast hdev_min
          linarith
        nlinarith [hfrac]
    · exact le_max_left _ _
    · refine max_le (by norm_num) ?_
      simp only [RADIUS_METERS]
      have hfrac : (500 - dev.dist) / 500 ≤ 1 := by
        rw [div_le_one (by norm_num : (0:ℚ) < 500)]
        linarith
      nlinarith [hfrac]

/-- C10 (witness): the range theorem applied to the single candidate
with price `0` and distance `0`, whose computed score is `100`. -/
theorem computeScore_range_witness :
    0 ≤ ({ mkDev 1 0 with score := 100 } : Device).score ∧
      ({ mkDev 1 0 with score := 100 } : Device).score ≤ 100 :=
  computeScore_range [mkDev 1 0] [{ mkDev 1 0 with score := 100 }]
    (by simp) (by with_unfolding_all decide) (by with_unfolding_all rfl)
    { mkDev 1 0 with score := 100 } (by simp)
